import Mathlib

/-!
Verification development for the Foggia road-network bridge-criticality
notebook (`bridge_criticality_analysis.ipynb`).

The notebook is a single-pass pipeline over two tables:
  * a functionality table (one row per bridge, functionality as a percent
    string such as "93.4%"), and
  * an efficiency table (one row per bridge per buffer distance, with
    original/new global efficiency and their difference).

We embed the tables as lists of records, floats as rationals, and each
pandas operation used by the notebook as an explicit Lean function:
  * `Series.str.rstrip` / `astype(float)` become `pyRstripPct` / `pyFloat`
    (the decimal core of Python float parsing: optional sign, digits,
    optional fractional part);
  * `pd.merge(..., how = inner)` on the bridge key becomes `innerMerge`
    (each left row paired with every matching right row, left order kept);
  * column-wise `min` / `max` become `colMin` / `colMax`;
  * `sort_values(ascending = False)` becomes a stable descending
    insertion sort `insSort` (stable sort by the criticality column);
  * `head(10)` becomes `List.take 10`;
  * `value_counts` evaluated at one key becomes a filtered length.
-/

/-- One raw row of `Functionality_475years.csv`: the bridge identifier
(column `IOP`) and the functionality value as a string (e.g. "93.4%"). -/
structure FuncRowRaw where
  iop : String
  functionality : String
deriving DecidableEq, Repr

/-- One row of the functionality table after the Normalizer has stripped
the percent sign and cast the column to float. -/
structure FuncRow where
  iop : String
  functionality : ℚ
deriving DecidableEq, Repr

/-- One row of `efficiency_results_all_bridges.csv`. -/
structure EffRow where
  iop : String
  osmId : String
  highwayType : String
  buffer : ℚ
  originalEff : ℚ
  newEff : ℚ
  changeInEff : ℚ
deriving DecidableEq, Repr

/-- A fully scored row of `merged_df` after the criticality computation:
all efficiency columns, the joined functionality, and every derived
column the notebook adds. -/
structure ScoredRow where
  iop : String
  osmId : String
  highwayType : String
  buffer : ℚ
  originalEff : ℚ
  newEff : ℚ
  changeInEff : ℚ
  functionality : ℚ
  normEffChange : ℚ
  normFunc : ℚ
  normEff : ℚ
  criticalityScore : ℚ
  relEffChange : ℚ
  absRelEffChange : ℚ
deriving DecidableEq, Repr

/-- One row of the top-10 summary table (`summary_rows` in the notebook):
the fields the notebook copies out of each top bridge. -/
structure SummaryRow where
  buffer : ℚ
  iop : String
  osmId : String
  highwayType : String
  functionality : ℚ
  criticalityScore : ℚ
  normEffChange : ℚ
  absRelEffChange : ℚ
deriving DecidableEq, Repr

/- ### The Normalizer: percent-string cleaning (`str.rstrip` + `astype(float)`) -/

/-- `str.rstrip( percent )` on a list of characters: remove every trailing
percent-sign character. -/
def pyRstripPctL (cs : List Char) : List Char :=
  ((cs.reverse.dropWhile (fun c => c == '%')).reverse)

/-- `Series.str.rstrip` specialised to the percent sign, on strings. -/
def pyRstripPct (s : String) : String :=
  ⟨pyRstripPctL s.data⟩

/-- Value of a digit character. -/
def digitVal (c : Char) : ℕ := c.toNat - 48

/-- Value of a digit string read in base 10. -/
def digitsVal (ds : List Char) : ℕ :=
  ds.foldl (fun a c => 10 * a + digitVal c) 0

/-- The unsigned decimal core of Python float parsing: `digits+`,
`digits+ . digits*`, or `. digits+`; anything else is rejected. -/
def pyFloatUnsigned (cs : List Char) : Option ℚ :=
  let intPart := cs.takeWhile (fun c => c.isDigit)
  let rest := cs.dropWhile (fun c => c.isDigit)
  if rest.isEmpty then
    if intPart.isEmpty then none else some (digitsVal intPart)
  else if rest.head? == some '.' then
    let fracPart := rest.tail.takeWhile (fun c => c.isDigit)
    let rest3 := rest.tail.dropWhile (fun c => c.isDigit)
    if rest3.isEmpty && !(intPart.isEmpty && fracPart.isEmpty) then
      some ((digitsVal intPart : ℚ) + (digitsVal fracPart : ℚ) / 10 ^ fracPart.length)
    else none
  else none

/-- `float(s)` on a list of characters: optional sign, then the unsigned
decimal core (exponents, infinities and surrounding whitespace, which
never occur in this data, are not modelled). A `none` result is the
`ValueError` that `astype(float)` raises. -/
def pyFloatL (cs : List Char) : Option ℚ :=
  if cs.head? == some '-' then (pyFloatUnsigned cs.tail).map (fun q => -q)
  else if cs.head? == some '+' then pyFloatUnsigned cs.tail
  else pyFloatUnsigned cs

/-- `float(s)` on strings. -/
def pyFloat (s : String) : Option ℚ :=
  pyFloatL s.data

/-- The per-value Normalizer:
`functionality_df.Functionality.str.rstrip.astype(float)` applied to one
cell: strip trailing percent signs, then parse as a float. -/
def normalizeValue (s : String) : Option ℚ :=
  pyFloat (pyRstripPct s)

/-- The Normalizer applied to the whole functionality table: the `astype`
call converts every cell and raises on the first bad one, so the whole
conversion fails if any single value fails. -/
def normalizeFunctionality : List FuncRowRaw → Option (List FuncRow)
  | [] => some []
  | r :: rs =>
      match normalizeValue r.functionality, normalizeFunctionality rs with
      | some q, some rest => some (⟨r.iop, q⟩ :: rest)
      | _, _ => none

/-- Pandas `Series.abs` on one value. (Stated as a conditional so that it
computes; it agrees with `|q|`, see `absQ_eq_abs`.) -/
def absQ (q : ℚ) : ℚ := if q < 0 then -q else q

/- ### Column min / max (pandas `Series.min` / `Series.max`) -/

/-- `Series.min` of a column given as a list (0 on the empty column,
which the notebook never hits on its data). -/
def colMin : List ℚ → ℚ
  | [] => 0
  | [x] => x
  | x :: y :: ys => min x (colMin (y :: ys))

/-- `Series.max` of a column given as a list. -/
def colMax : List ℚ → ℚ
  | [] => 0
  | [x] => x
  | x :: y :: ys => max x (colMax (y :: ys))

/- ### Stable sorting (`DataFrame.sort_values`) -/

/-- Insert `x` into `l` in front of the first element `y` with `le x y`. -/
def insertLe {α : Type} (le : α → α → Bool) (x : α) : List α → List α
  | [] => [x]
  | y :: ys => if le x y then x :: y :: ys else y :: insertLe le x ys

/-- Insertion sort by the comparison `le`, modelling the ordering that
`sort_values` produces on the chosen column. The notebook calls
`sort_values` with its default `kind = quicksort`, which guarantees only
the ordering by the sort key and leaves the relative order of tied rows
unspecified; this model realises one concrete such ordering, and no
theorem below relies on its particular tie order. -/
def insSort {α : Type} (le : α → α → Bool) : List α → List α
  | [] => []
  | x :: xs => insertLe le x (insSort le xs)

/- ### The Scorer -/

/-- `sorted(efficiency_df[Buffer Distance].unique())`: the distinct buffer
distances of the efficiency table, in ascending order. (`unique` keeps
first occurrences and `sorted` then orders them ascending; since the
result is duplicate-free, deduplicating and sorting ascending yields the
identical list.) -/
def bufferDistances (eff : List EffRow) : List ℚ :=
  insSort (fun a b => decide (a ≤ b)) (eff.map (fun e => e.buffer)).dedup

/-- `efficiency_df[efficiency_df[Buffer Distance] == buffer]`: the
efficiency rows of one buffer group. -/
def bufferFilter (eff : List EffRow) (b : ℚ) : List EffRow :=
  eff.filter (fun e => decide (e.buffer = b))

/-- `pd.merge(buffer_df, functionality_df, on = Bridge IOP, how = inner)`:
every left row paired with every right row carrying the same bridge
identifier, in left-table order; the functionality column is the only
right-table column the notebook keeps. -/
def innerMerge (bufferDf : List EffRow) (func : List FuncRow) : List (EffRow × ℚ) :=
  bufferDf.flatMap (fun e =>
    (func.filter (fun f => decide (f.iop = e.iop))).map (fun f => (e, f.functionality)))

/-- `merged_df` for one buffer distance: filter then inner-join. -/
def mergedAt (eff : List EffRow) (func : List FuncRow) (b : ℚ) : List (EffRow × ℚ) :=
  innerMerge (bufferFilter eff b) func

/-- `min_func`: minimum of the joined functionality column. -/
def minFuncAt (eff : List EffRow) (func : List FuncRow) (b : ℚ) : ℚ :=
  colMin ((mergedAt eff func b).map (fun p => p.2))

/-- `max_func`: maximum of the joined functionality column. -/
def maxFuncAt (eff : List EffRow) (func : List FuncRow) (b : ℚ) : ℚ :=
  colMax ((mergedAt eff func b).map (fun p => p.2))

/-- `min_eff`: minimum of the absolute efficiency-change column. -/
def minEffAt (eff : List EffRow) (func : List FuncRow) (b : ℚ) : ℚ :=
  colMin ((mergedAt eff func b).map (fun p => absQ p.1.changeInEff))

/-- `max_eff`: maximum of the absolute efficiency-change column. -/
def maxEffAt (eff : List EffRow) (func : List FuncRow) (b : ℚ) : ℚ :=
  colMax ((mergedAt eff func b).map (fun p => absQ p.1.changeInEff))

/-- The derived columns the notebook adds to one joined row, given the
group min/max values: `Normalized Efficiency Change` (absolute change),
`Norm_Func`, `Norm_Eff`, `Criticality Score`, `Relative Efficiency
Change` and its absolute value; the buffer column is set to the loop
variable. All four normalization divisions are performed unconditionally,
exactly as in the notebook. -/
def scoreRow (minF maxF minE maxE b : ℚ) (p : EffRow × ℚ) : ScoredRow :=
  let nec := absQ p.1.changeInEff
  let nFunc := 1 - ((p.2 - minF) / (maxF - minF))
  let nEff := (nec - minE) / (maxE - minE)
  let rel := p.1.changeInEff / p.1.originalEff
  ⟨p.1.iop, p.1.osmId, p.1.highwayType, b, p.1.originalEff, p.1.newEff,
    p.1.changeInEff, p.2, nec, nFunc, nEff, (nFunc + nEff) / 2, rel, absQ rel⟩

/-- The scored table of one buffer group (the body of the
`for buffer in buffer_distances` loop). -/
def scoreBuffer (eff : List EffRow) (func : List FuncRow) (b : ℚ) : List ScoredRow :=
  (mergedAt eff func b).map
    (scoreRow (minFuncAt eff func b) (maxFuncAt eff func b)
      (minEffAt eff func b) (maxEffAt eff func b) b)

/-- `all_scores_df = pd.concat(all_criticality_scores)`: the per-group
tables concatenated in iteration order of `buffer_distances`. -/
def allScores (eff : List EffRow) (func : List FuncRow) : List ScoredRow :=
  (bufferDistances eff).flatMap (fun b => scoreBuffer eff func b)

/- ### The Reporter -/

/-- The comparison used by
`sort_values(Criticality Score, ascending = False)`. -/
def scoreDesc (a b : ScoredRow) : Bool :=
  decide (b.criticalityScore ≤ a.criticalityScore)

/-- `top_bridges = buffer_scores.sort_values(Criticality Score,
ascending = False).head(10)`. -/
def topBridges (scores : List ScoredRow) : List ScoredRow :=
  (insSort scoreDesc scores).take 10

/-- The dictionary appended to `summary_rows` for one top bridge. -/
def toSummary (b : ℚ) (r : ScoredRow) : SummaryRow :=
  ⟨b, r.iop, r.osmId, r.highwayType, r.functionality, r.criticalityScore,
    r.normEffChange, r.absRelEffChange⟩

/-- `buffer_scores = all_scores_df[all_scores_df[Buffer Distance] ==
buffer]`: one buffer group of the comprehensive scored table. -/
def bufferScores (eff : List EffRow) (func : List FuncRow) (b : ℚ) : List ScoredRow :=
  (allScores eff func).filter (fun r => decide (r.buffer = b))

/-- `summary_df`: for each buffer distance, the top-10 rows of that
group of `all_scores_df`, flattened in order. -/
def summaryRows (eff : List EffRow) (func : List FuncRow) : List SummaryRow :=
  (bufferDistances eff).flatMap (fun b =>
    (topBridges (bufferScores eff func b)).map (toSummary b))

/-- `summary_df[Bridge IOP].value_counts()` evaluated at one bridge
identifier: the number of summary rows carrying it. -/
def bridgeFrequency (summary : List SummaryRow) (iop : String) : ℕ :=
  (summary.filter (fun r => decide (r.iop = iop))).length

/-- Whether a string carries the trailing percent-sign suffix. -/
def hasPctSuffix (s : String) : Bool :=
  s.data.getLast? == some '%'

/- ### The two-bridge scenario of the spec (C7) -/

/-- The efficiency table of the spec scenario: exactly two rows at
buffer 5, `(B1, change = -0.02, original = 0.50)` and
`(B2, change = -0.01, original = 0.50)`. -/
def effScenario : List EffRow :=
  [⟨"B1", "111", "primary", 5, 1 / 2, 12 / 25, -(1 / 50)⟩,
   ⟨"B2", "222", "secondary", 5, 1 / 2, 49 / 100, -(1 / 100)⟩]

/-- The functionality table of the spec scenario: B1 at 80, B2 at 90. -/
def funcScenario : List FuncRow := [⟨"B1", 80⟩, ⟨"B2", 90⟩]

/-- The fully scored B1 row of the scenario. -/
def rowB1 : ScoredRow :=
  ⟨"B1", "111", "primary", 5, 1 / 2, 12 / 25, -(1 / 50), 80, 1 / 50, 1, 1, 1,
    -(1 / 25), 1 / 25⟩

/-- The fully scored B2 row of the scenario. -/
def rowB2 : ScoredRow :=
  ⟨"B2", "222", "secondary", 5, 1 / 2, 49 / 100, -(1 / 100), 90, 1 / 100, 0, 0, 0,
    -(1 / 50), 1 / 50⟩

/- ### C2: normalization degeneracy (zero denominator, no guard) -/

/-- A functionality table in which every bridge has the same
functionality value. -/
def funcDegenerate : List FuncRow := [⟨"B1", 80⟩, ⟨"B2", 80⟩]

/-- An efficiency table with two rows for the same bridge at the same
buffer distance. -/
def effDup : List EffRow :=
  [⟨"B1", "111", "primary", 5, 1 / 2, 12 / 25, -(1 / 50)⟩,
   ⟨"B1", "112", "trunk", 5, 1 / 2, 12 / 25, -(1 / 50)⟩]

/-- A functionality table with the single bridge B1. -/
def funcOne : List FuncRow := [⟨"B1", 80⟩]

/- ### C10: relative efficiency change divides by the original efficiency -/

/-- An efficiency table containing a row whose original global efficiency
is zero. -/
def effZeroOriginal : List EffRow := [⟨"B1", "111", "primary", 5, 0, 0, 0⟩]

theorem absQ_eq_abs (q : ℚ) : absQ q = |q| := by
  by_cases h : q < 0
  · simp [absQ, h, abs_of_neg h]
  · simp [absQ, h, abs_of_nonneg (le_of_not_lt h)]

theorem colMin_le_of_mem {l : List ℚ} {x : ℚ} (hx : x ∈ l) : colMin l ≤ x := by
  induction l with
  | nil => cases hx
  | cons a t ih =>
      cases t with
      | nil => simp only [List.mem_singleton] at hx; simp [colMin, hx]
      | cons b u =>
          rcases List.mem_cons.mp hx with h | h
          · simp [colMin, h]
          · exact le_trans (by simp [colMin]) (ih h)

theorem le_colMax_of_mem {l : List ℚ} {x : ℚ} (hx : x ∈ l) : x ≤ colMax l := by
  induction l with
  | nil => cases hx
  | cons a t ih =>
      cases t with
      | nil => simp only [List.mem_singleton] at hx; simp [colMax, hx]
      | cons b u =>
          rcases List.mem_cons.mp hx with h | h
          · simp [colMax, h]
          · exact le_trans (ih h) (by simp [colMax])

theorem colMin_mem {l : List ℚ} (h : l ≠ []) : colMin l ∈ l := by
  induction l with
  | nil => exact absurd rfl h
  | cons a t ih =>
      cases t with
      | nil => simp [colMin]
      | cons b u =>
          rcases min_choice a (colMin (b :: u)) with hc | hc
          · simp [colMin, hc]
          · have := ih (by simp)
            simp only [colMin, hc]
            exact List.mem_cons_of_mem a this

theorem colMax_mem {l : List ℚ} (h : l ≠ []) : colMax l ∈ l := by
  induction l with
  | nil => exact absurd rfl h
  | cons a t ih =>
      cases t with
      | nil => simp [colMax]
      | cons b u =>
          rcases max_choice a (colMax (b :: u)) with hc | hc
          · simp [colMax, hc]
          · have := ih (by simp)
            simp only [colMax, hc]
            exact List.mem_cons_of_mem a this

/-- If two members of a column differ, the column min is strictly below
the column max. -/
theorem colMin_lt_colMax {l : List ℚ} {x y : ℚ} (hx : x ∈ l) (hy : y ∈ l)
    (hxy : x ≠ y) : colMin l < colMax l := by
  rcases lt_or_gt_of_ne hxy with h | h
  · exact lt_of_le_of_lt (colMin_le_of_mem hx) (lt_of_lt_of_le h (le_colMax_of_mem hy))
  · exact lt_of_le_of_lt (colMin_le_of_mem hy) (lt_of_lt_of_le h (le_colMax_of_mem hx))

theorem insertLe_perm {α : Type} (le : α → α → Bool) (x : α) (l : List α) :
    List.Perm (insertLe le x l) (x :: l) := by
  induction l with
  | nil => simp [insertLe]
  | cons y ys ih =>
      by_cases h : le x y
      · simp [insertLe, h]
      · simp only [insertLe, h, if_neg]
        exact List.Perm.trans (List.Perm.cons y ih) (List.Perm.swap x y ys)

theorem insSort_perm {α : Type} (le : α → α → Bool) (l : List α) :
    List.Perm (insSort le l) l := by
  induction l with
  | nil => simp [insSort]
  | cons x xs ih =>
      exact List.Perm.trans (insertLe_perm le x (insSort le xs)) (List.Perm.cons x ih)

theorem insSort_mem {α : Type} (le : α → α → Bool) (l : List α) (x : α) :
    x ∈ insSort le l ↔ x ∈ l :=
  (insSort_perm le l).mem_iff

theorem insertLe_pairwise {α : Type} (le : α → α → Bool)
    (total : ∀ a b, le a b = false → le b a = true)
    (trans : ∀ a b c, le a b = true → le b c = true → le a c = true)
    (x : α) (l : List α) (hl : l.Pairwise (fun a b => le a b = true)) :
    (insertLe le x l).Pairwise (fun a b => le a b = true) := by
  induction l with
  | nil => simp [insertLe]
  | cons y ys ih =>
      rcases List.pairwise_cons.mp hl with ⟨hy, hys⟩
      by_cases h : le x y
      · simp only [insertLe, h, if_pos]
        refine List.pairwise_cons.mpr ⟨?_, hl⟩
        intro z hz
        rcases List.mem_cons.mp hz with hz | hz
        · exact hz ▸ h
        · exact trans x y z h (hy z hz)
      · simp only [insertLe, h, if_neg]
        refine List.pairwise_cons.mpr ⟨?_, ih hys⟩
        intro z hz
        rcases List.mem_cons.mp ((insertLe_perm le x ys).mem_iff.mp hz) with hz | hz
        · exact hz ▸ total x y (by simpa using h)
        · exact hy z hz

theorem insSort_pairwise {α : Type} (le : α → α → Bool)
    (total : ∀ a b, le a b = false → le b a = true)
    (trans : ∀ a b c, le a b = true → le b c = true → le a c = true)
    (l : List α) : (insSort le l).Pairwise (fun a b => le a b = true) := by
  induction l with
  | nil => simp [insSort]
  | cons x xs ih => exact insertLe_pairwise le total trans x (insSort le xs) ih

/- ### Lemmas about the Normalizer -/

/-- A successfully parsed unsigned decimal consists of digits and dots
only. -/
theorem pyFloatUnsigned_chars {cs : List Char} {q : ℚ}
    (h : pyFloatUnsigned cs = some q) :
    ∀ c ∈ cs, c.isDigit = true ∨ c = '.' := by
  intro c hc
  unfold pyFloatUnsigned at h
  dsimp only [] at h
  split at h
  · rename_i h1
    left
    exact List.dropWhile_eq_nil_iff.mp (List.isEmpty_iff.mp h1) c hc
  · rename_i h1
    split at h
    · rename_i h2
      split at h
      · rename_i h3
        have h3'' := h3
        simp only [Bool.and_eq_true] at h3''
        have h3' : (cs.dropWhile (fun c => c.isDigit)).tail.dropWhile
            (fun c => c.isDigit) = [] :=
          List.isEmpty_iff.mp h3''.1
        have hc' : c ∈ cs.takeWhile (fun c => c.isDigit)
            ++ cs.dropWhile (fun c => c.isDigit) := by
          rw [List.takeWhile_append_dropWhile]; exact hc
        rcases List.mem_append.mp hc' with hmem | hmem
        · exact Or.inl (List.mem_takeWhile_imp hmem)
        · have hne : cs.dropWhile (fun c => c.isDigit) ≠ [] := by
            intro hnil
            rw [hnil] at h1
            exact h1 rfl
          have hhead : (cs.dropWhile (fun c => c.isDigit)).head hne = '.' := by
            have hh := List.head?_eq_head hne
            rw [hh] at h2
            simpa using h2.symm
          have hcons : cs.dropWhile (fun c => c.isDigit)
              = '.' :: (cs.dropWhile (fun c => c.isDigit)).tail := by
            conv_lhs => rw [← List.head_cons_tail _ hne, hhead]
          rw [hcons] at hmem
          rcases List.mem_cons.mp hmem with hmem | hmem
          · exact Or.inr hmem
          · exact Or.inl (List.dropWhile_eq_nil_iff.mp h3' c hmem)
      · exact Option.noConfusion h
    · exact Option.noConfusion h

/-- A successfully parsed float consists of digits, dots and signs. -/
theorem pyFloatL_chars {cs : List Char} {q : ℚ} (h : pyFloatL cs = some q) :
    ∀ c ∈ cs, c.isDigit = true ∨ c = '.' ∨ c = '-' ∨ c = '+' := by
  intro c hc
  cases cs with
  | nil => cases hc
  | cons a t =>
      unfold pyFloatL at h
      by_cases ha : a = '-'
      · subst ha
        simp only [List.head?_cons, List.tail_cons] at h
        rw [if_pos (by simp)] at h
        rcases Option.map_eq_some'.mp h with ⟨q', hq', _⟩
        rcases List.mem_cons.mp hc with hc | hc
        · exact Or.inr (Or.inr (Or.inl hc))
        · rcases pyFloatUnsigned_chars hq' c hc with hd | hd
          · exact Or.inl hd
          · exact Or.inr (Or.inl hd)
      · by_cases hb : a = '+'
        · subst hb
          simp only [List.head?_cons, List.tail_cons] at h
          rw [if_neg (by simp), if_pos (by simp)] at h
          rcases List.mem_cons.mp hc with hc | hc
          · exact Or.inr (Or.inr (Or.inr hc))
          · rcases pyFloatUnsigned_chars h c hc with hd | hd
            · exact Or.inl hd
            · exact Or.inr (Or.inl hd)
        · simp only [List.head?_cons, List.tail_cons] at h
          rw [if_neg (by simpa using ha), if_neg (by simpa using hb)] at h
          rcases pyFloatUnsigned_chars h c hc with hd | hd
          · exact Or.inl hd
          · exact Or.inr (Or.inl hd)

/-- A successfully parsed float contains no percent sign. -/
theorem pyFloatL_no_pct {cs : List Char} {q : ℚ} (h : pyFloatL cs = some q) :
    '%' ∉ cs := by
  intro hmem
  rcases pyFloatL_chars h '%' hmem with hd | hd | hd | hd
  · exact absurd hd (by decide)
  · exact absurd hd (by decide)
  · exact absurd hd (by decide)
  · exact absurd hd (by decide)

/-- Dropping leading percent signs from a list without percent signs does
nothing. -/
theorem dropWhile_pct_of_no_pct {l : List Char} (h : '%' ∉ l) :
    l.dropWhile (fun c => c == '%') = l := by
  cases l with
  | nil => rfl
  | cons a t =>
      have ha : a ≠ '%' := fun hc => h (hc ▸ List.mem_cons_self a t)
      rw [List.dropWhile_cons, if_neg (by simpa using ha)]

/-- Stripping trailing percent signs from `s ++ "%"` recovers `s` when `s`
itself contains no percent sign. -/
theorem pyRstripPctL_append_pct {l : List Char} (h : '%' ∉ l) :
    pyRstripPctL (l ++ ['%']) = l := by
  unfold pyRstripPctL
  rw [List.reverse_append]
  simp only [List.reverse_cons, List.reverse_nil, List.nil_append, List.singleton_append,
    List.dropWhile_cons]
  rw [if_pos (by simp)]
  rw [dropWhile_pct_of_no_pct (by simpa using h)]
  exact List.reverse_reverse l

/- ### The claims about the Normalizer -/

/-- C5: every functionality value of the form of a numeric string
followed by a trailing percent sign is normalized to the number obtained
by stripping the percent sign and parsing the remainder as a float. -/
theorem claim_C5_percent_strings_parse (s : String) (q : ℚ)
    (h : pyFloat s = some q) : normalizeValue (s ++ "%") = some q := by
  unfold normalizeValue pyFloat pyRstripPct
  have hdata : (s ++ "%").data = s.data ++ ['%'] := by
    rw [String.data_append]
  rw [hdata, pyRstripPctL_append_pct (pyFloatL_no_pct h)]
  exact h

/-- C5 witness: the spec scenario "80%" parses to the float 80, and
"93.4%" parses to 93.4. -/
theorem claim_C5_percent_strings_parse_witness :
    normalizeValue "80%" = some 80 ∧ normalizeValue "93.4%" = some (467 / 5) := by
  constructor
  · have h : pyFloat "80" = some 80 := by
      simp [pyFloat, pyFloatL, pyFloatUnsigned, digitsVal, digitVal, Char.isDigit,
        List.dropWhile_cons, List.takeWhile_cons]
    have := claim_C5_percent_strings_parse "80" 80 h
    simpa using this
  · have h : pyFloat "93.4" = some (467 / 5) := by
      simp [pyFloat, pyFloatL, pyFloatUnsigned, digitsVal, digitVal, Char.isDigit,
        List.dropWhile_cons, List.takeWhile_cons]
      norm_num
    have := claim_C5_percent_strings_parse "93.4" (467 / 5) h
    simpa using this

/-- C4 counterexample: the value "93.4" lacks the trailing percent-sign
suffix, yet the Normalizer does NOT fail on it: `rstrip` leaves it
unchanged and `astype(float)` parses it successfully, refuting the claim
that every suffix-less value raises a format error. -/
theorem claim_C4_counterexample :
    hasPctSuffix "93.4" = false
      ∧ normalizeValue "93.4" = some (467 / 5)
      ∧ normalizeFunctionality [⟨"B1", "93.4"⟩] = some [⟨"B1", 467 / 5⟩] := by
  refine ⟨by decide, ?_, ?_⟩
  · simp [normalizeValue, pyFloat, pyRstripPct, pyRstripPctL, pyFloatL, pyFloatUnsigned,
      digitsVal, digitVal, Char.isDigit, List.dropWhile_cons, List.takeWhile_cons]
    norm_num
  · simp only [normalizeFunctionality]
    rw [show normalizeValue "93.4" = some (467 / 5) by
      simp [normalizeValue, pyFloat, pyRstripPct, pyRstripPctL, pyFloatL, pyFloatUnsigned,
        digitsVal, digitVal, Char.isDigit, List.dropWhile_cons, List.takeWhile_cons]
      norm_num]

/-- C4 amended: if any functionality value's remainder after stripping
trailing percent signs is non-numeric, the Normalizer fails (the
column-wide `astype(float)` raises); a numeric value lacking the percent
suffix, however, parses successfully. -/
theorem claim_C4_nonnumeric_fails (rows : List FuncRowRaw) (r : FuncRowRaw)
    (hr : r ∈ rows) (h : pyFloat (pyRstripPct r.functionality) = none) :
    normalizeFunctionality rows = none := by
  induction rows with
  | nil => cases hr
  | cons a t ih =>
      rcases List.mem_cons.mp hr with hr | hr
      · subst hr
        have : normalizeValue r.functionality = none := h
        simp only [normalizeFunctionality, this]
      · simp only [normalizeFunctionality, ih hr]
        cases normalizeValue a.functionality <;> rfl

/-- C4 amended witness: a table containing the non-numeric value "abc"
makes the whole Normalizer fail. -/
theorem claim_C4_nonnumeric_fails_witness :
    normalizeFunctionality [⟨"B1", "abc"⟩] = none := by
  apply claim_C4_nonnumeric_fails [⟨"B1", "abc"⟩] ⟨"B1", "abc"⟩ (by simp)
  simp [pyFloat, pyRstripPct, pyRstripPctL, pyFloatL, pyFloatUnsigned,
    Char.isDigit, List.dropWhile_cons, List.takeWhile_cons]

/-- A nonempty column whose entries are all equal has `max - min = 0`. -/
theorem colMax_sub_colMin_eq_zero {l : List ℚ} (hne : l ≠ [])
    (h : ∀ x ∈ l, ∀ y ∈ l, x = y) : colMax l - colMin l = 0 := by
  rw [h (colMax l) (colMax_mem hne) (colMin l) (colMin_mem hne)]
  exact sub_self _

/-- C7: on the two-bridge scenario the Scorer yields
`normalized_efficiency_change = [0.02, 0.01]`, `norm_eff = [1, 0]`,
`norm_func = [1, 0]` and `criticality_score = [1, 0]` for B1 and B2
respectively. -/
theorem claim_C7_scenario :
    (scoreBuffer effScenario funcScenario 5).map (fun r => r.iop) = ["B1", "B2"]
      ∧ (scoreBuffer effScenario funcScenario 5).map (fun r => r.normEffChange)
          = [1 / 50, 1 / 100]
      ∧ (scoreBuffer effScenario funcScenario 5).map (fun r => r.normEff) = [1, 0]
      ∧ (scoreBuffer effScenario funcScenario 5).map (fun r => r.normFunc) = [1, 0]
      ∧ (scoreBuffer effScenario funcScenario 5).map (fun r => r.criticalityScore)
          = [1, 0] := by
  refine ⟨?_, ?_, ?_, ?_, ?_⟩ <;>
    simp [scoreBuffer, mergedAt, innerMerge, bufferFilter, effScenario, funcScenario,
      minFuncAt, maxFuncAt, minEffAt, maxEffAt, colMin, colMax, scoreRow, List.flatMap,
      min_def, max_def, absQ, List.filter_cons, Function.comp,
      show (-(1/50):ℚ) < 0 by norm_num, show (-(1/100):ℚ) < 0 by norm_num,
      show ¬((1/50:ℚ) ≤ 1/100) by norm_num, show ((1/100:ℚ) ≤ 1/50) by norm_num,
      show ((80:ℚ) ≤ 90) by norm_num] <;>
    norm_num

/-- Evaluation of the Scorer on the scenario tables. -/
theorem scenario_scoreBuffer :
    scoreBuffer effScenario funcScenario 5 = [rowB1, rowB2] := by
  simp [scoreBuffer, mergedAt, innerMerge, bufferFilter, effScenario, funcScenario,
    minFuncAt, maxFuncAt, minEffAt, maxEffAt, colMin, colMax, scoreRow, List.flatMap,
    min_def, max_def, absQ, List.filter_cons, rowB1, rowB2,
    show (-(1/50):ℚ) < 0 by norm_num, show (-(1/100):ℚ) < 0 by norm_num,
    show ¬((1/50:ℚ) ≤ 1/100) by norm_num, show ((1/100:ℚ) ≤ 1/50) by norm_num,
    show ((80:ℚ) ≤ 90) by norm_num]
  norm_num

/-- The scenario efficiency table has the single buffer distance 5. -/
theorem scenario_bufferDistances : bufferDistances effScenario = [5] := by
  simp [bufferDistances, effScenario, insSort, insertLe]

/-- Evaluation of the comprehensive scored table on the scenario. -/
theorem scenario_allScores :
    allScores effScenario funcScenario = [rowB1, rowB2] := by
  rw [allScores, scenario_bufferDistances]
  simp [List.flatMap, scenario_scoreBuffer]

/-- Evaluation of the buffer-5 group of the comprehensive table. -/
theorem scenario_bufferScores :
    bufferScores effScenario funcScenario 5 = [rowB1, rowB2] := by
  rw [bufferScores, scenario_allScores]
  simp [List.filter_cons, rowB1, rowB2]

/-- Evaluation of the top-10 selection on the scenario group. -/
theorem scenario_topBridges :
    topBridges (bufferScores effScenario funcScenario 5) = [rowB1, rowB2] := by
  rw [topBridges, scenario_bufferScores]
  simp [insSort, insertLe, scoreDesc, rowB1, rowB2, show ((0:ℚ) ≤ 1) by norm_num]

/-- Evaluation of the top-10 summary table on the scenario. -/
theorem scenario_summaryRows :
    summaryRows effScenario funcScenario = [toSummary 5 rowB1, toSummary 5 rowB2] := by
  rw [summaryRows, scenario_bufferDistances]
  simp [List.flatMap, scenario_topBridges]

/- ### C1: criticality scores lie in the unit interval -/

/-- C1: in every buffer group with more than one distinct functionality
value and more than one distinct absolute efficiency-change value among
its joined rows, every scored row's criticality score lies in [0, 1]. -/
theorem claim_C1_score_in_unit_interval (eff : List EffRow) (func : List FuncRow)
    (b : ℚ)
    (hf : ∃ p ∈ mergedAt eff func b, ∃ p' ∈ mergedAt eff func b, p.2 ≠ p'.2)
    (he : ∃ p ∈ mergedAt eff func b, ∃ p' ∈ mergedAt eff func b,
        absQ p.1.changeInEff ≠ absQ p'.1.changeInEff) :
    ∀ r ∈ scoreBuffer eff func b,
      0 ≤ r.criticalityScore ∧ r.criticalityScore ≤ 1 := by
  rcases hf with ⟨p, hp, p', hp', hnef⟩
  have hFlt : minFuncAt eff func b < maxFuncAt eff func b :=
    colMin_lt_colMax (List.mem_map_of_mem _ hp) (List.mem_map_of_mem _ hp') hnef
  rcases he with ⟨w, hw, w', hw', hnee⟩
  have hElt : minEffAt eff func b < maxEffAt eff func b :=
    colMin_lt_colMax (List.mem_map_of_mem _ hw) (List.mem_map_of_mem _ hw') hnee
  intro r hr
  rcases List.mem_map.mp hr with ⟨t, ht, htr⟩
  have hmemF : t.2 ∈ (mergedAt eff func b).map (fun p => p.2) :=
    List.mem_map_of_mem _ ht
  have hmemE : absQ t.1.changeInEff
      ∈ (mergedAt eff func b).map (fun p => absQ p.1.changeInEff) :=
    List.mem_map_of_mem _ ht
  have hFpos : 0 < maxFuncAt eff func b - minFuncAt eff func b := sub_pos.mpr hFlt
  have hEpos : 0 < maxEffAt eff func b - minEffAt eff func b := sub_pos.mpr hElt
  have htF0 : 0 ≤ (t.2 - minFuncAt eff func b)
      / (maxFuncAt eff func b - minFuncAt eff func b) :=
    div_nonneg (sub_nonneg.mpr (colMin_le_of_mem hmemF)) hFpos.le
  have htF1 : (t.2 - minFuncAt eff func b)
      / (maxFuncAt eff func b - minFuncAt eff func b) ≤ 1 :=
    (div_le_one hFpos).mpr (sub_le_sub_right (le_colMax_of_mem hmemF) _)
  have htE0 : 0 ≤ (absQ t.1.changeInEff - minEffAt eff func b)
      / (maxEffAt eff func b - minEffAt eff func b) :=
    div_nonneg (sub_nonneg.mpr (colMin_le_of_mem hmemE)) hEpos.le
  have htE1 : (absQ t.1.changeInEff - minEffAt eff func b)
      / (maxEffAt eff func b - minEffAt eff func b) ≤ 1 :=
    (div_le_one hEpos).mpr (sub_le_sub_right (le_colMax_of_mem hmemE) _)
  rw [← htr]
  simp only [scoreRow]
  constructor
  · linarith
  · linarith

/-- C1 witness: on the two-bridge scenario (functionalities 80 ≠ 90,
absolute changes 0.02 ≠ 0.01), the B1 row's criticality score 1 lies in
[0, 1]. -/
theorem claim_C1_score_in_unit_interval_witness :
    0 ≤ (⟨"B1", "111", "primary", 5, 1 / 2, 12 / 25, -(1 / 50), 80, 1 / 50, 1, 1, 1,
          -(1 / 25), 1 / 25⟩ : ScoredRow).criticalityScore
      ∧ (⟨"B1", "111", "primary", 5, 1 / 2, 12 / 25, -(1 / 50), 80, 1 / 50, 1, 1, 1,
          -(1 / 25), 1 / 25⟩ : ScoredRow).criticalityScore ≤ 1 := by
  apply claim_C1_score_in_unit_interval effScenario funcScenario 5
  · refine ⟨(⟨"B1", "111", "primary", 5, 1 / 2, 12 / 25, -(1 / 50)⟩, 80), ?_,
      (⟨"B2", "222", "secondary", 5, 1 / 2, 49 / 100, -(1 / 100)⟩, 90), ?_, ?_⟩
    · simp [mergedAt, innerMerge, bufferFilter, effScenario, funcScenario,
        List.filter_cons, List.flatMap]
    · simp [mergedAt, innerMerge, bufferFilter, effScenario, funcScenario,
        List.filter_cons, List.flatMap]
    · norm_num
  · refine ⟨(⟨"B1", "111", "primary", 5, 1 / 2, 12 / 25, -(1 / 50)⟩, 80), ?_,
      (⟨"B2", "222", "secondary", 5, 1 / 2, 49 / 100, -(1 / 100)⟩, 90), ?_, ?_⟩
    · simp [mergedAt, innerMerge, bufferFilter, effScenario, funcScenario,
        List.filter_cons, List.flatMap]
    · simp [mergedAt, innerMerge, bufferFilter, effScenario, funcScenario,
        List.filter_cons, List.flatMap]
    · norm_num [absQ]
  · simp [scoreBuffer, mergedAt, innerMerge, bufferFilter, effScenario, funcScenario,
      minFuncAt, maxFuncAt, minEffAt, maxEffAt, colMin, colMax, scoreRow, List.flatMap,
      min_def, max_def, absQ, List.filter_cons,
      show (-(1/50):ℚ) < 0 by norm_num, show (-(1/100):ℚ) < 0 by norm_num,
      show ¬((1/50:ℚ) ≤ 1/100) by norm_num, show ((1/100:ℚ) ≤ 1/50) by norm_num,
      show ((80:ℚ) ≤ 90) by norm_num]
    norm_num

/-- C2: for a buffer group whose joined rows all share one functionality
value (resp. one absolute efficiency-change value), the min-max
denominator `max - min` computed by the notebook is zero; and the
normalization expressions are evaluated with these denominators
unconditionally on every row — there is no guard, so the zero-denominator
division is reached for such a group. -/
theorem claim_C2_degenerate_denominator (eff : List EffRow) (func : List FuncRow)
    (b : ℚ) (hne : mergedAt eff func b ≠ []) :
    ((∀ p ∈ mergedAt eff func b, ∀ p' ∈ mergedAt eff func b, p.2 = p'.2) →
        maxFuncAt eff func b - minFuncAt eff func b = 0)
      ∧ ((∀ p ∈ mergedAt eff func b, ∀ p' ∈ mergedAt eff func b,
            absQ p.1.changeInEff = absQ p'.1.changeInEff) →
          maxEffAt eff func b - minEffAt eff func b = 0)
      ∧ (∀ r ∈ scoreBuffer eff func b,
          r.normFunc = 1 - ((r.functionality - minFuncAt eff func b)
              / (maxFuncAt eff func b - minFuncAt eff func b))
            ∧ r.normEff = (r.normEffChange - minEffAt eff func b)
              / (maxEffAt eff func b - minEffAt eff func b)) := by
  refine ⟨?_, ?_, ?_⟩
  · intro hall
    apply colMax_sub_colMin_eq_zero (by simpa using hne)
    intro x hx y hy
    rcases List.mem_map.mp hx with ⟨p, hp, hpx⟩
    rcases List.mem_map.mp hy with ⟨p', hp', hpy⟩
    rw [← hpx, ← hpy]
    exact hall p hp p' hp'
  · intro hall
    apply colMax_sub_colMin_eq_zero (by simpa using hne)
    intro x hx y hy
    rcases List.mem_map.mp hx with ⟨p, hp, hpx⟩
    rcases List.mem_map.mp hy with ⟨p', hp', hpy⟩
    rw [← hpx, ← hpy]
    exact hall p hp p' hp'
  · intro r hr
    rcases List.mem_map.mp hr with ⟨p, _, hpr⟩
    rw [← hpr]
    exact ⟨rfl, rfl⟩

/-- C2 witness: joining the scenario efficiency table with a
functionality table in which both bridges sit at 80 produces a nonempty
group with a zero `Norm_Func` denominator. -/
theorem claim_C2_degenerate_denominator_witness :
    maxFuncAt effScenario funcDegenerate 5 - minFuncAt effScenario funcDegenerate 5
      = 0 := by
  apply (claim_C2_degenerate_denominator effScenario funcDegenerate 5 (by
    simp [mergedAt, innerMerge, bufferFilter, effScenario, funcDegenerate,
      List.filter_cons, List.flatMap])).1
  intro p hp p' hp'
  simp [mergedAt, innerMerge, bufferFilter, effScenario, funcDegenerate,
    List.filter_cons, List.flatMap] at hp hp'
  rcases hp with hp | hp <;> rcases hp' with hp' | hp' <;> rw [hp, hp']

/- ### C6: the inner join -/

/-- Filtering a list by one key value yields at most one element when the
mapped keys are duplicate-free. -/
theorem filter_key_length_le_one {α : Type} (k : α → String) (c : String)
    (l : List α) (h : (l.map k).Nodup) :
    (l.filter (fun x => decide (k x = c))).length ≤ 1 := by
  induction l with
  | nil => simp
  | cons a t ih =>
      simp only [List.map_cons, List.nodup_cons] at h
      by_cases hk : k a = c
      · rw [List.filter_cons, if_pos (by simpa using hk)]
        have hnil : t.filter (fun x => decide (k x = c)) = [] := by
          rw [List.filter_eq_nil_iff]
          intro x hx hdec
          have hxc : k x = c := of_decide_eq_true hdec
          exact h.1 (hxc.trans hk.symm ▸ List.mem_map_of_mem k hx)
        rw [hnil]
        simp
      · rw [List.filter_cons, if_neg (by simpa using hk)]
        exact ih h.2

/-- Structure of a row of the inner join: its left component is a row of
the left table and its functionality comes from a right-table row with
the same bridge identifier. -/
theorem innerMerge_mem {L : List EffRow} {func : List FuncRow} {r : EffRow × ℚ}
    (hr : r ∈ innerMerge L func) :
    r.1 ∈ L ∧ ∃ f ∈ func, f.iop = r.1.iop ∧ r.2 = f.functionality := by
  simp only [innerMerge, List.mem_flatMap, List.mem_map, List.mem_filter] at hr
  rcases hr with ⟨e, he, f, ⟨hf, hdec⟩, hfr⟩
  have hiop : f.iop = e.iop := of_decide_eq_true hdec
  rw [← hfr]
  exact ⟨he, f, hf, hiop, rfl⟩

/-- With duplicate-free functionality identifiers, the inner join has at
most one row per left-table row. -/
theorem innerMerge_length_le (L : List EffRow) (func : List FuncRow)
    (h : (func.map (fun f => f.iop)).Nodup) :
    (innerMerge L func).length ≤ L.length := by
  induction L with
  | nil => simp [innerMerge]
  | cons a t ih =>
      have hstep : innerMerge (a :: t) func
          = ((func.filter (fun f => decide (f.iop = a.iop))).map
              (fun f => (a, f.functionality))) ++ innerMerge t func := by
        simp only [innerMerge, List.flatMap_cons]
      rw [hstep, List.length_append, List.length_map, List.length_cons]
      have h1 : (func.filter (fun f => decide (f.iop = a.iop))).length ≤ 1 :=
        filter_key_length_le_one (fun f => f.iop) a.iop func h
      omega

/-- With duplicate-free functionality identifiers, the joined rows carry
pairwise distinct identifiers drawn from the left table in order. -/
theorem innerMerge_iops_sublist (L : List EffRow) (func : List FuncRow)
    (h : (func.map (fun f => f.iop)).Nodup) :
    ((innerMerge L func).map (fun r => r.1.iop)).Sublist
      (L.map (fun e => e.iop)) := by
  induction L with
  | nil => simp [innerMerge]
  | cons a t ih =>
      have hstep : innerMerge (a :: t) func
          = ((func.filter (fun f => decide (f.iop = a.iop))).map
              (fun f => (a, f.functionality))) ++ innerMerge t func := by
        simp only [innerMerge, List.flatMap_cons]
      rw [hstep, List.map_append, List.map_map, List.map_cons]
      have hlen : (func.filter (fun f => decide (f.iop = a.iop))).length ≤ 1 :=
        filter_key_length_le_one (fun f => f.iop) a.iop func h
      rcases hF : func.filter (fun f => decide (f.iop = a.iop)) with _ | ⟨f, F⟩
      · rw [hF]
        simp only [List.map_nil, List.nil_append]
        exact ih.trans (List.sublist_cons_self _ _)
      · rw [hF] at hlen ⊢
        have hFnil : F = [] := by
          have hF0 : F.length = 0 := by
            simp only [List.length_cons] at hlen
            omega
          exact List.eq_nil_of_length_eq_zero hF0
        subst hFnil
        simp only [List.map_cons, List.map_nil, Function.comp_apply,
          List.singleton_append]
        exact List.Sublist.cons₂ _ ih

/-- C6 amended: every joined row's bridge identifier occurs both in the
functionality table and among the efficiency rows of that buffer; with
bridge identifiers unique in the functionality table the join count is
at most the number of efficiency rows for the buffer; and if they are
additionally unique among that buffer's efficiency rows, the count is at
most `min(|functionality rows|, |efficiency rows for b|)`. -/
theorem claim_C6_inner_join (eff : List EffRow) (func : List FuncRow) (b : ℚ) :
    (∀ r ∈ mergedAt eff func b,
        r.1 ∈ bufferFilter eff b ∧ r.1.iop ∈ func.map (fun f => f.iop))
      ∧ ((func.map (fun f => f.iop)).Nodup →
          (mergedAt eff func b).length ≤ (bufferFilter eff b).length)
      ∧ ((func.map (fun f => f.iop)).Nodup →
          ((bufferFilter eff b).map (fun e => e.iop)).Nodup →
          (mergedAt eff func b).length
            ≤ min func.length (bufferFilter eff b).length) := by
  refine ⟨?_, ?_, ?_⟩
  · intro r hr
    rcases innerMerge_mem hr with ⟨h1, f, hf, hiop, _⟩
    exact ⟨h1, hiop ▸ List.mem_map_of_mem _ hf⟩
  · intro h
    exact innerMerge_length_le _ _ h
  · intro hfunc heff
    refine le_min ?_ (innerMerge_length_le _ _ hfunc)
    have hsub : ((mergedAt eff func b).map (fun r => r.1.iop)) ⊆ func.map (fun f => f.iop) := by
      intro x hx
      rcases List.mem_map.mp hx with ⟨r, hr, hrx⟩
      rcases innerMerge_mem hr with ⟨_, f, hf, hiop, _⟩
      rw [← hrx, ← hiop]
      exact List.mem_map_of_mem _ hf
    have hnodup : ((mergedAt eff func b).map (fun r => r.1.iop)).Nodup :=
      (innerMerge_iops_sublist _ _ hfunc).nodup heff
    have := (List.Nodup.subperm hnodup hsub).length_le
    rw [List.length_map, List.length_map] at this
    exact this

/-- C6 witness: on the two-bridge scenario both uniqueness hypotheses
hold and the join count 2 is at most `min(2, 2)`. -/
theorem claim_C6_inner_join_witness :
    (mergedAt effScenario funcScenario 5).length
      ≤ min funcScenario.length (bufferFilter effScenario 5).length := by
  apply (claim_C6_inner_join effScenario funcScenario 5).2.2
  · simp [funcScenario]
  · simp [bufferFilter, effScenario, List.filter_cons]

/-- C6 counterexample: with bridge identifiers unique in the
functionality table but duplicated among a buffer's efficiency rows, the
inner join yields 2 rows, exceeding `min(|functionality| = 1,
|efficiency rows for b| = 2) = 1` — so the claimed bound fails as
stated. -/
theorem claim_C6_counterexample :
    (funcOne.map (fun f => f.iop)).Nodup
      ∧ (mergedAt effDup funcOne 5).length = 2
      ∧ ¬((mergedAt effDup funcOne 5).length
          ≤ min funcOne.length (bufferFilter effDup 5).length) := by
  refine ⟨by simp [funcOne], ?_, ?_⟩
  · simp [mergedAt, innerMerge, bufferFilter, effDup, funcOne, List.filter_cons,
      List.flatMap]
  · simp [mergedAt, innerMerge, bufferFilter, effDup, funcOne, List.filter_cons,
      List.flatMap]

/- ### Structure of the comprehensive table (C9) -/

/-- Every scored row of a buffer group carries that group's buffer
distance (the notebook assigns the loop variable to the buffer column). -/
theorem scoreBuffer_buffer {eff : List EffRow} {func : List FuncRow} {b : ℚ} :
    ∀ r ∈ scoreBuffer eff func b, r.buffer = b := by
  intro r hr
  rcases List.mem_map.mp hr with ⟨p, _, hpr⟩
  rw [← hpr]
  rfl

/-- The buffer-distance list is duplicate-free. -/
theorem bufferDistances_nodup (eff : List EffRow) : (bufferDistances eff).Nodup :=
  (insSort_perm _ _).nodup_iff.mpr (List.nodup_dedup _)

/-- The buffer-distance list is sorted ascending. -/
theorem bufferDistances_sorted (eff : List EffRow) :
    (bufferDistances eff).Pairwise (fun x y => x ≤ y) := by
  have hp := insSort_pairwise (fun a b : ℚ => decide (a ≤ b))
    (fun a b hab => by
      simp only [decide_eq_false_iff_not, not_le] at hab
      simpa using le_of_lt hab)
    (fun a b c hab hbc => by
      simp only [decide_eq_true_eq] at hab hbc ⊢
      exact le_trans hab hbc)
    (eff.map (fun e => e.buffer)).dedup
  exact hp.imp (fun h => of_decide_eq_true h)

/-- The buffer-distance list contains exactly the buffer values of the
efficiency table. -/
theorem mem_bufferDistances (eff : List EffRow) (b : ℚ) :
    b ∈ bufferDistances eff ↔ b ∈ eff.map (fun e => e.buffer) :=
  (insSort_mem _ _ b).trans List.mem_dedup

/-- Every row of the comprehensive table carries a buffer distance from
the buffer-distance list. -/
theorem allScores_buffer_mem {eff : List EffRow} {func : List FuncRow}
    {r : ScoredRow} (hr : r ∈ allScores eff func) :
    r.buffer ∈ bufferDistances eff := by
  rcases List.mem_flatMap.mp hr with ⟨b, hb, hrb⟩
  rw [scoreBuffer_buffer r hrb]
  exact hb

/-- Selecting one buffer group out of the comprehensive table recovers
exactly that group's scored rows. -/
theorem bufferScores_eq_scoreBuffer (eff : List EffRow) (func : List FuncRow)
    (b : ℚ) (hb : b ∈ bufferDistances eff) :
    bufferScores eff func b = scoreBuffer eff func b := by
  unfold bufferScores allScores
  have haux : ∀ ds : List ℚ, ds.Nodup → b ∈ ds →
      ((ds.flatMap (fun b' => scoreBuffer eff func b')).filter
        (fun r => decide (r.buffer = b))) = scoreBuffer eff func b := by
    intro ds
    induction ds with
    | nil => intro _ hmem; cases hmem
    | cons a t ih =>
        intro hnd hmem
        rw [List.flatMap_cons, List.filter_append]
        rcases List.mem_cons.mp hmem with hba | hbt
        · subst hba
          have h1 : (scoreBuffer eff func b).filter (fun r => decide (r.buffer = b))
              = scoreBuffer eff func b := by
            rw [List.filter_eq_self]
            intro r hr
            simpa using scoreBuffer_buffer r hr
          have h2 : (t.flatMap (fun b' => scoreBuffer eff func b')).filter
              (fun r => decide (r.buffer = b)) = [] := by
            rw [List.filter_eq_nil_iff]
            intro r hr hdec
            rcases List.mem_flatMap.mp hr with ⟨b', hb', hrb'⟩
            have : r.buffer = b' := scoreBuffer_buffer r hrb'
            have hbb' : b = b' := (of_decide_eq_true hdec).symm.trans this
            exact (List.nodup_cons.mp hnd).1 (hbb' ▸ hb')
          rw [h1, h2, List.append_nil]
        · have hab : a ≠ b := by
            intro hc
            exact (List.nodup_cons.mp hnd).1 (hc ▸ hbt)
          have h1 : (scoreBuffer eff func a).filter (fun r => decide (r.buffer = b))
              = [] := by
            rw [List.filter_eq_nil_iff]
            intro r hr hdec
            exact hab ((scoreBuffer_buffer r hr).symm.trans (of_decide_eq_true hdec))
          rw [h1, List.nil_append]
          exact ih (List.nodup_cons.mp hnd).2 hbt
  exact haux _ (bufferDistances_nodup eff) hb

/-- A buffer distance outside the buffer-distance list selects the empty
group. -/
theorem bufferScores_eq_nil (eff : List EffRow) (func : List FuncRow) (b : ℚ)
    (hb : b ∉ bufferDistances eff) : bufferScores eff func b = [] := by
  unfold bufferScores
  rw [List.filter_eq_nil_iff]
  intro r hr hdec
  exact hb (of_decide_eq_true hdec ▸ allScores_buffer_mem hr)

/-- Exact per-key filtered length under duplicate-free keys: one element
when the key is present, none otherwise. -/
theorem filter_key_length_eq {α : Type} (k : α → String) (c : String)
    (l : List α) (h : (l.map k).Nodup) :
    (l.filter (fun x => decide (k x = c))).length = if c ∈ l.map k then 1 else 0 := by
  by_cases hc : c ∈ l.map k
  · rw [if_pos hc]
    rcases List.mem_map.mp hc with ⟨x, hx, hxc⟩
    have hmem : x ∈ l.filter (fun x => decide (k x = c)) :=
      List.mem_filter.mpr ⟨hx, by simpa using hxc⟩
    have hpos := List.length_pos.mpr (List.ne_nil_of_mem hmem)
    have hle := filter_key_length_le_one k c l h
    omega
  · rw [if_neg hc]
    rw [List.length_eq_zero, List.filter_eq_nil_iff]
    intro x hx hdec
    exact hc (of_decide_eq_true hdec ▸ List.mem_map_of_mem k hx)

/-- Rows of the inner join that do not carry a left-table identifier do
not exist. -/
theorem innerMerge_filter_eq_nil (L : List EffRow) (func : List FuncRow)
    (i : String) (hi : i ∉ L.map (fun e => e.iop)) :
    (innerMerge L func).filter (fun r => decide (r.1.iop = i)) = [] := by
  rw [List.filter_eq_nil_iff]
  intro r hr hdec
  rcases innerMerge_mem hr with ⟨h1, _⟩
  exact hi (of_decide_eq_true hdec ▸ List.mem_map_of_mem _ h1)

/-- Exact join multiplicity per bridge identifier: with duplicate-free
identifiers on both sides, the inner join has exactly one row for an
identifier present in both tables and none otherwise. -/
theorem innerMerge_count (L : List EffRow) (func : List FuncRow) (i : String)
    (hL : (L.map (fun e => e.iop)).Nodup)
    (hfunc : (func.map (fun f => f.iop)).Nodup) :
    ((innerMerge L func).filter (fun r => decide (r.1.iop = i))).length
      = if i ∈ L.map (fun e => e.iop) ∧ i ∈ func.map (fun f => f.iop)
        then 1 else 0 := by
  induction L with
  | nil => simp [innerMerge]
  | cons a t ih =>
      simp only [List.map_cons, List.nodup_cons] at hL
      have hstep : innerMerge (a :: t) func
          = ((func.filter (fun f => decide (f.iop = a.iop))).map
              (fun f => (a, f.functionality))) ++ innerMerge t func := by
        simp only [innerMerge, List.flatMap_cons]
      rw [hstep, List.filter_append, List.length_append]
      by_cases hai : a.iop = i
      · have hinner : (((func.filter (fun f => decide (f.iop = a.iop))).map
            (fun f => (a, f.functionality))).filter
              (fun r => decide (r.1.iop = i))).length
            = (func.filter (fun f => decide (f.iop = i))).length := by
          rw [List.filter_map, List.length_map]
          have hconst : ∀ f : FuncRow,
              ((fun r : EffRow × ℚ => decide (r.1.iop = i))
                ∘ (fun f => (a, f.functionality))) f = decide (a.iop = i) := by
            intro f
            rfl
          rw [List.filter_congr (fun f _ => hconst f)]
          rw [List.filter_congr (fun f _ => by simp [hai] : ∀ f ∈ func.filter
            (fun f => decide (f.iop = a.iop)), (fun _ => decide (a.iop = i)) f = true)]
          rw [List.filter_true, ← hai]
        have hrest : ((innerMerge t func).filter
            (fun r => decide (r.1.iop = i))).length = 0 := by
          rw [List.length_eq_zero]
          exact innerMerge_filter_eq_nil t func i (hai ▸ hL.1)
        rw [hinner, hrest, filter_key_length_eq _ _ _ hfunc]
        have hmem : i ∈ (a :: t).map (fun e => e.iop) := by
          simp [← hai]
        by_cases hif : i ∈ func.map (fun f => f.iop)
        · rw [if_pos hif, if_pos ⟨hmem, hif⟩]
        · rw [if_neg hif, if_neg (fun hc => hif hc.2)]
      · have hinner : (((func.filter (fun f => decide (f.iop = a.iop))).map
            (fun f => (a, f.functionality))).filter
              (fun r => decide (r.1.iop = i))).length = 0 := by
          rw [List.length_eq_zero, List.filter_eq_nil_iff]
          intro r hr hdec
          rcases List.mem_map.mp hr with ⟨f, _, hfr⟩
          apply hai
          rw [← hfr] at hdec
          exact of_decide_eq_true hdec
        rw [hinner, ih hL.2, Nat.zero_add]
        have hmem : (i ∈ (a :: t).map (fun e => e.iop))
            ↔ (i ∈ t.map (fun e => e.iop)) := by
          simp only [List.map_cons, List.mem_cons]
          constructor
          · intro h
            rcases h with h | h
            · exact absurd h.symm hai
            · exact h
          · exact Or.inr
        simp only [hmem]

/-- Join multiplicity carried through the scoring map: the scored group
has exactly one row per bridge identifier present in both tables. -/
theorem scoreBuffer_count (eff : List EffRow) (func : List FuncRow) (b : ℚ)
    (i : String)
    (hfunc : (func.map (fun f => f.iop)).Nodup)
    (heffb : ((bufferFilter eff b).map (fun e => e.iop)).Nodup) :
    ((scoreBuffer eff func b).filter (fun r => decide (r.iop = i))).length
      = if i ∈ (bufferFilter eff b).map (fun e => e.iop)
          ∧ i ∈ func.map (fun f => f.iop) then 1 else 0 := by
  have hmap : ((scoreBuffer eff func b).filter (fun r => decide (r.iop = i))).length
      = ((mergedAt eff func b).filter (fun p => decide (p.1.iop = i))).length := by
    rw [scoreBuffer, List.filter_map, List.length_map]
    rfl
  rw [hmap]
  exact innerMerge_count _ _ _ heffb hfunc

/-- C9: the comprehensive scored table iterates over the sorted
duplicate-free buffer distances of the efficiency table, its rows are
grouped by buffer distance in ascending order, and (for identifier-unique
input tables, as in the data model) it contains exactly one row per
(bridge, buffer) pair joined from both tables. -/
theorem claim_C9_comprehensive_table (eff : List EffRow) (func : List FuncRow)
    (hfunc : (func.map (fun f => f.iop)).Nodup)
    (heff : ∀ b : ℚ, ((bufferFilter eff b).map (fun e => e.iop)).Nodup) :
    ((bufferDistances eff).Pairwise (fun x y => x ≤ y)
        ∧ (bufferDistances eff).Nodup
        ∧ ∀ b : ℚ, b ∈ bufferDistances eff ↔ b ∈ eff.map (fun e => e.buffer))
      ∧ ((allScores eff func).map (fun r => r.buffer)).Pairwise (fun x y => x ≤ y)
      ∧ ∀ (i : String) (b : ℚ),
          ((bufferScores eff func b).filter (fun r => decide (r.iop = i))).length
            = if i ∈ (bufferFilter eff b).map (fun e => e.iop)
                ∧ i ∈ func.map (fun f => f.iop) then 1 else 0 := by
  refine ⟨⟨bufferDistances_sorted eff, bufferDistances_nodup eff,
    fun b => mem_bufferDistances eff b⟩, ?_, ?_⟩
  · unfold allScores
    have haux : ∀ ds : List ℚ, ds.Pairwise (fun x y => x ≤ y) →
        ((ds.flatMap (fun b => scoreBuffer eff func b)).map
          (fun r => r.buffer)).Pairwise (fun x y => x ≤ y) := by
      intro ds
      induction ds with
      | nil => intro _; simp
      | cons a t ih =>
          intro hp
          rcases List.pairwise_cons.mp hp with ⟨ha, ht⟩
          rw [List.flatMap_cons, List.map_append, List.pairwise_append]
          refine ⟨?_, ih ht, ?_⟩
          · apply List.pairwise_of_forall_mem_list
            intro x hx y hy
            rcases List.mem_map.mp hx with ⟨r, hr, hrx⟩
            rcases List.mem_map.mp hy with ⟨s, hs, hsy⟩
            rw [← hrx, ← hsy, scoreBuffer_buffer r hr, scoreBuffer_buffer s hs]
          · intro x hx y hy
            rcases List.mem_map.mp hx with ⟨r, hr, hrx⟩
            rcases List.mem_map.mp hy with ⟨s, hs, hsy⟩
            rcases List.mem_flatMap.mp hs with ⟨b', hb', hsb'⟩
            rw [← hrx, ← hsy, scoreBuffer_buffer r hr, scoreBuffer_buffer s hsb']
            exact ha b' hb'
    exact haux _ (bufferDistances_sorted eff)
  · intro i b
    by_cases hb : b ∈ bufferDistances eff
    · rw [bufferScores_eq_scoreBuffer eff func b hb]
      exact scoreBuffer_count eff func b i hfunc (heff b)
    · rw [bufferScores_eq_nil eff func b hb]
      have hnone : i ∉ (bufferFilter eff b).map (fun e => e.iop) := by
        intro hi
        rcases List.mem_map.mp hi with ⟨e, he, _⟩
        rcases List.mem_filter.mp he with ⟨heff', hdec⟩
        apply hb
        rw [mem_bufferDistances]
        exact of_decide_eq_true hdec ▸ List.mem_map_of_mem _ heff'
      simp [hnone]

/-- C9 witness: on the scenario tables (identifier-unique on both sides)
the buffer-5 group of the comprehensive table has exactly one row for
bridge B1. -/
theorem claim_C9_comprehensive_table_witness :
    ((bufferScores effScenario funcScenario 5).filter
        (fun r => decide (r.iop = "B1"))).length = 1 := by
  have h := (claim_C9_comprehensive_table effScenario funcScenario
    (by simp [funcScenario])
    (fun b => by
      apply List.Sublist.nodup (List.Sublist.map _ (List.filter_sublist _))
      simp [effScenario])).2.2 "B1" 5
  rw [h]
  rw [if_pos]
  constructor
  · simp [bufferFilter, effScenario, List.filter_cons]
  · simp [funcScenario]

/- ### C8: the cross-group frequency count -/

/-- C8: assuming each bridge contributes at most one summary row per
buffer group, the `value_counts` frequency of a bridge over the
concatenated top-10 summary table equals the number of distinct buffer
groups in whose top-10 the bridge appears (`bufferDistances` is
duplicate-free, so the filtered length below counts distinct groups). -/
theorem claim_C8_frequency (eff : List EffRow) (func : List FuncRow) (iop : String)
    (h : ∀ b ∈ bufferDistances eff,
        ((topBridges (bufferScores eff func b)).filter
            (fun r => decide (r.iop = iop))).length ≤ 1) :
    bridgeFrequency (summaryRows eff func) iop
      = ((bufferDistances eff).filter
          (fun b => decide (∃ r ∈ topBridges (bufferScores eff func b),
              r.iop = iop))).length := by
  unfold bridgeFrequency summaryRows
  have haux : ∀ ds : List ℚ,
      (∀ b ∈ ds, ((topBridges (bufferScores eff func b)).filter
          (fun r => decide (r.iop = iop))).length ≤ 1) →
      ((ds.flatMap (fun b =>
          (topBridges (bufferScores eff func b)).map (toSummary b))).filter
        (fun r => decide (r.iop = iop))).length
      = (ds.filter (fun b => decide (∃ r ∈ topBridges (bufferScores eff func b),
          r.iop = iop))).length := by
    intro ds
    induction ds with
    | nil => intro _; simp
    | cons a t ih =>
        intro hds
        rw [List.flatMap_cons, List.filter_append, List.length_append, List.filter_cons]
        have hmap : ((List.map (toSummary a) (topBridges (bufferScores eff func a))).filter
            (fun r => decide (r.iop = iop))).length
            = ((topBridges (bufferScores eff func a)).filter
                (fun r => decide (r.iop = iop))).length := by
          rw [List.filter_map, List.length_map]
          rfl
        rw [hmap, ih (fun b hb => hds b (List.mem_cons_of_mem a hb))]
        by_cases hex : ∃ r ∈ topBridges (bufferScores eff func a), r.iop = iop
        · have hpos : 1 ≤ ((topBridges (bufferScores eff func a)).filter
              (fun r => decide (r.iop = iop))).length := by
            rcases hex with ⟨r, hr, hri⟩
            have hmem : r ∈ (topBridges (bufferScores eff func a)).filter
                (fun r => decide (r.iop = iop)) :=
              List.mem_filter.mpr ⟨hr, by simpa using hri⟩
            exact List.length_pos.mpr (List.ne_nil_of_mem hmem)
          have h1 : ((topBridges (bufferScores eff func a)).filter
              (fun r => decide (r.iop = iop))).length = 1 :=
            le_antisymm (hds a (List.mem_cons_self a t)) hpos
          rw [h1, if_pos (by simpa using hex), List.length_cons]
          omega
        · have h0 : (topBridges (bufferScores eff func a)).filter
              (fun r => decide (r.iop = iop)) = [] := by
            rw [List.filter_eq_nil_iff]
            intro r hr hdec
            exact hex ⟨r, hr, of_decide_eq_true hdec⟩
          rw [h0, if_neg (by simpa using hex)]
          simp
  exact haux (bufferDistances eff) h

/-- C8 witness: on the scenario, bridge B1 appears in the top-10 of the
single buffer group, so its cross-group frequency is 1. -/
theorem claim_C8_frequency_witness :
    bridgeFrequency (summaryRows effScenario funcScenario) "B1" = 1 := by
  have h := claim_C8_frequency effScenario funcScenario "B1" ?_
  · rw [h, scenario_bufferDistances, List.filter_cons]
    rw [scenario_topBridges]
    simp [rowB1]
  · intro b hb
    rw [scenario_bufferDistances] at hb
    have hb5 : b = 5 := by simpa using hb
    subst hb5
    rw [scenario_topBridges]
    simp [rowB1, rowB2, List.filter_cons]

/-- C10: the notebook computes
`Relative Efficiency Change = Change in Efficiency / Original Global
Efficiency` on every joined row with no guard on the denominator, and on
an input with a zero original efficiency the joined group contains a row
whose division denominator is zero. -/
theorem claim_C10_division_unguarded :
    (∀ (eff : List EffRow) (func : List FuncRow) (b : ℚ),
        ∀ r ∈ scoreBuffer eff func b, r.relEffChange = r.changeInEff / r.originalEff)
      ∧ ∃ r ∈ scoreBuffer effZeroOriginal funcScenario 5, r.originalEff = 0 := by
  constructor
  · intro eff func b r hr
    rcases List.mem_map.mp hr with ⟨p, _, hpr⟩
    rw [← hpr]
    rfl
  · refine ⟨⟨"B1", "111", "primary", 5, 0, 0, 0, 80, 0, 1, 0, 1 / 2, 0, 0⟩, ?_, rfl⟩
    simp [scoreBuffer, mergedAt, innerMerge, bufferFilter, effZeroOriginal, funcScenario,
      minFuncAt, maxFuncAt, minEffAt, maxEffAt, colMin, colMax, scoreRow, List.flatMap,
      List.filter_cons, absQ]

/-- C10 witness: on the zero-original-efficiency input, the single scored
row carries `originalEff = 0` and its relative efficiency change was
computed as `changeInEff / originalEff` — a division by zero. -/
theorem claim_C10_division_unguarded_witness :
    (⟨"B1", "111", "primary", 5, 0, 0, 0, 80, 0, 1, 0, 1 / 2, 0, 0⟩ : ScoredRow).relEffChange
      = (⟨"B1", "111", "primary", 5, 0, 0, 0, 80, 0, 1, 0, 1 / 2, 0, 0⟩ : ScoredRow).changeInEff
        / (⟨"B1", "111", "primary", 5, 0, 0, 0, 80, 0, 1, 0, 1 / 2, 0, 0⟩ : ScoredRow).originalEff := by
  apply claim_C10_division_unguarded.1 effZeroOriginal funcScenario 5
  simp [scoreBuffer, mergedAt, innerMerge, bufferFilter, effZeroOriginal, funcScenario,
    minFuncAt, maxFuncAt, minEffAt, maxEffAt, colMin, colMax, scoreRow, List.flatMap,
    List.filter_cons, absQ]
